import Mathlib

/-!
Verification of the markdown parsing and highlighting engine of the
wherite note-taking application.

The engine operates byte-wise over ASCII marker characters; we embed a Go
string as a `List Char` and each Go function as a Lean function of the same
name.  Go's `s[i]` becomes `List.get?`, `s[a:b]` becomes `extract`, and a Go
slice expression whose bound may exceed the string's length (a potential
runtime panic) is modelled by an `Option`, `none` standing for the panic.
`ParseInlines` does not terminate on every input (see `c1_inline_parser_diverges`),
so it is embedded with an explicit fuel parameter, `none` standing for a
computation that has not finished within `fuel` steps; all other functions
are total and are embedded directly.
-/

/-- Character class used by Go's strings.TrimSpace (ASCII fragment; every
input considered here is ASCII). -/
def isSpaceChar (c : Char) : Bool :=
  c == ' ' || c == '\t' || c == '\n' || c == '\r'

/-- Remove the leading run of whitespace. -/
def trimLeftSpace : List Char → List Char
  | [] => []
  | c :: cs => if isSpaceChar c then trimLeftSpace cs else c :: cs

/-- Remove the trailing run of whitespace. -/
def trimRightSpace (l : List Char) : List Char :=
  (trimLeftSpace l.reverse).reverse

/-- Go strings.TrimSpace. -/
def trimSpace (l : List Char) : List Char :=
  trimLeftSpace (trimRightSpace l)

/-- Go strings.TrimLeft with a cutset: remove the leading run of characters
belonging to `cut`. -/
def trimLeftCutset (cut : List Char) : List Char → List Char
  | [] => []
  | c :: cs => if cut.contains c then trimLeftCutset cut cs else c :: cs

/-- Go strings.Contains: whether `pat` occurs as a contiguous substring of `l`. -/
def containsSub (l pat : List Char) : Bool :=
  match l with
  | [] => pat.isEmpty
  | c :: cs => pat.isPrefixOf (c :: cs) || containsSub cs pat

/-- Go `s[a:b]` for indices that are in bounds in every use below. -/
def extract (l : List Char) (a b : Nat) : List Char :=
  (l.drop a).take (b - a)

/-- Go `s[n:]`; `none` models the runtime panic raised when `n > len(s)`. -/
def goSliceFrom (l : List Char) (n : Nat) : Option (List Char) :=
  if n ≤ l.length then some (l.drop n) else none

/-- Scan a suffix (`s = text.drop idx`) for the first occurrence of `pat`,
returning its absolute index. -/
def scanPrefixFrom (pat : List Char) : List Char → Nat → Option Nat
  | s, idx =>
    if pat.isPrefixOf s then some idx
    else
      match s with
      | [] => none
      | _ :: rest => scanPrefixFrom pat rest (idx + 1)

/-- Go findNextByte (wherite_markdown.go): first index `i ≥ start` with
`text[i] = c`; Go's -1 result is `none`. -/
def findNextByte (text : List Char) (start : Nat) (c : Char) : Option Nat :=
  scanPrefixFrom [c] (text.drop start) start

/-- Go findNextStr (wherite_markdown.go): first index `i ≥ start` where `str`
occurs; Go's -1 result is `none`. -/
def findNextStr (text : List Char) (start : Nat) (str : List Char) : Option Nat :=
  scanPrefixFrom str (text.drop start) start

/-- Go splitLines (wherite_markdown.go): split on newline; the segment after
the last newline is appended only when non-empty. -/
def splitLinesGo : List Char → List Char → List (List Char)
  | [], cur => if cur.isEmpty then [] else [cur]
  | c :: cs, cur =>
    if c == '\n' then cur :: splitLinesGo cs []
    else splitLinesGo cs (cur ++ [c])

def splitLines (text : List Char) : List (List Char) :=
  splitLinesGo text []

/-- Go strings.Join with separator newline. -/
def joinLines : List (List Char) → List Char
  | [] => []
  | [l] => l
  | l :: ls => l ++ '\n' :: joinLines ls

/-! ### Data model (wherite_markdown.go) -/

/-- Go InlineType is an int enumeration; the combined bold+italic state is
produced as `InlineTypeBold | 0x10`, so the type is kept as a `Nat`. -/
abbrev InlineType := Nat

def InlineTypeText : InlineType := 0
def InlineTypeBold : InlineType := 1
def InlineTypeItalic : InlineType := 2
def InlineTypeStrike : InlineType := 3
def InlineTypeCode : InlineType := 4
def InlineTypeLink : InlineType := 5

structure InlineElement where
  type : InlineType
  text : List Char
  url : List Char := []
deriving DecidableEq, Repr

inductive BlockType
  | empty | heading | paragraph | code | list | taskList | quote | horizontalRule | table
deriving DecidableEq, Repr

structure TableData where
  headers : List (List Char)
  rows : List (List (List Char))
deriving DecidableEq, Repr

structure TaskListData where
  checked : Bool
  content : List Char
deriving DecidableEq, Repr

structure MarkdownBlock where
  type : BlockType
  content : List Char := []
  level : Nat := 0
  inlines : List InlineElement := []
  tableData : Option TableData := none
  taskData : Option TaskListData := none
deriving DecidableEq, Repr

/-! ### Line classifiers (wherite_markdown.go) -/

/-- Go isHeading. -/
def isHeading (line : List Char) : Bool :=
  match line with
  | [] => false
  | c :: _ => c == '#'

/-- The level-counting loop of Go parseHeading: `level++` happens before the
`level > 6` break test. -/
def headingLevelAux : List Char → Nat → Nat
  | [], level => level
  | c :: rest, level =>
    if c == '#' then
      if level + 1 > 6 then level + 1 else headingLevelAux rest (level + 1)
    else level

/-- Go parseHeading. -/
def parseHeading (line : List Char) : Nat × List Char :=
  let level := headingLevelAux line 0
  let content :=
    if line.get? level == some ' ' then line.drop (level + 1)
    else if level < line.length then line.drop level
    else []
  (level, content)

/-- Go isCodeBlock: a fence-delimiter line (opening with optional language
tag, or closing). -/
def isCodeBlock (line : List Char) : Bool :=
  let trimmed := trimSpace line
  if trimmed.length < 3 then false
  else if !(trimmed.take 3 == "```".data || trimmed.take 3 == "~~~".data) then false
  else
    let trimmedRest := trimSpace (trimmed.drop 3)
    if trimmedRest.length == 0 then true
    else trimmedRest.all fun c =>
      (decide ('a' ≤ c) && decide (c ≤ 'z')) || (decide ('A' ≤ c) && decide (c ≤ 'Z')) ||
      (decide ('0' ≤ c) && decide (c ≤ '9')) || c == '+' || c == '#'

/-- Go isCodeBlockEnd: a pure closing fence line. -/
def isCodeBlockEnd (line : List Char) : Bool :=
  let trimmed := trimSpace line
  (trimmed.length == 3 && (trimmed == "```".data || trimmed == "~~~".data)) ||
  (decide (trimmed.length > 3) && (trimmed.take 3 == "```".data || trimmed.take 3 == "~~~".data)
    && (trimSpace (trimmed.drop 3)).length == 0)

/-- Go isListItem. -/
def isListItem (line : List Char) : Bool :=
  if line.length == 0 then false
  else if (line.get? 0 == some '-' || line.get? 0 == some '*') && line.get? 1 == some ' ' then
    true
  else if (match line.get? 0 with
            | some c => decide ('0' ≤ c) && decide (c ≤ '9')
            | none => false)
          && line.get? 1 == some '.' && line.get? 2 == some ' ' then
    true
  else false

/-- Go isTaskItem. -/
def isTaskItem (line : List Char) : Bool :=
  if decide (line.length < 4) then false
  else if !(line.get? 0 == some '[') then false
  else
    match line.get? 1 with
    | none => false
    | some c2 =>
      if !(c2 == ' ' || c2 == 'x' || c2 == 'X' || c2 == ']') then false
      else
        match (if c2 == ']' then some 1 else findNextByte line 2 ']') with
        | none => false
        | some cb =>
          !(decide (cb + 1 < line.length) && !(line.get? (cb + 1) == some ' '))

/-- Go parseTaskItem. -/
def parseTaskItem (line : List Char) : Bool × List Char :=
  if decide (line.length < 4) then (false, line)
  else
    let checked := line.get? 1 == some 'x' || line.get? 1 == some 'X'
    match (if line.get? 1 == some ']' then some 1 else findNextByte line 2 ']') with
    | none => (checked, line)
    | some cb => (checked, trimSpace (line.drop (cb + 1)))

/-- Go isQuote. -/
def isQuote (line : List Char) : Bool :=
  match line with
  | [] => false
  | c :: _ => c == '>'

/-- Go isHorizontalRule. -/
def isHorizontalRule (line : List Char) : Bool :=
  match line with
  | [] => false
  | c :: rest =>
    if decide (line.length < 3) then false
    else if !(c == '-' || c == '*' || c == '_') then false
    else rest.all fun x => x == c || x == ' '

/-- Go isTableLine. -/
def isTableLine (line : List Char) : Bool :=
  let trimmed := trimSpace line
  decide (trimmed.length > 0) &&
    (trimmed.get? 0 == some '|' || containsSub trimmed " | ".data)

/-- The character loop of Go splitTableRow.  `depth` is declared and tested
but never modified in the source; the backtick branch is identical to the
default branch. -/
def splitRowLoop : List Char → List Char → List (List Char) → Int → List (List Char)
  | [], cell, cells, _ =>
    if decide (cell.length > 0) then cells ++ [trimSpace cell] else cells
  | c :: cs, cell, cells, depth =>
    if c == '|' && depth == 0 then splitRowLoop cs [] (cells ++ [trimSpace cell]) depth
    else if c == '`' then splitRowLoop cs (cell ++ [c]) cells depth
    else splitRowLoop cs (cell ++ [c]) cells depth

/-- Go splitTableRow; `none` models the panic of the unguarded `row[0]`
access when the trimmed row is empty. -/
def splitTableRow (row0 : List Char) : Option (List (List Char)) :=
  match trimSpace row0 with
  | [] => none
  | c :: rest =>
    let row := if c == '|' then rest else c :: rest
    let row :=
      match row.getLast? with
      | some last => if last == '|' then row.dropLast else row
      | none => row
    some (splitRowLoop row [] [] 0)

/-- Go isTableSeparator; propagates the potential panic of splitTableRow. -/
def isTableSeparator (line : List Char) : Option Bool :=
  let trimmed := trimSpace line
  if decide (trimmed.length < 3) || !(trimmed.get? 0 == some '|') then some false
  else
    match splitTableRow trimmed with
    | none => none
    | some cells =>
      some (cells.all fun cell0 =>
        let cell := trimSpace cell0
        if cell.length == 0 then true
        else cell.all fun c => c == '-' || c == ':' || c == ' ')

/-! ### Block parser (wherite_markdown.go, ParseMarkdownBlock) -/

/-- Go parseLine. -/
def parseLine (line : List Char) : MarkdownBlock :=
  if line.isEmpty then { type := .empty }
  else if isHeading line then
    { type := .heading, content := (parseHeading line).2, level := (parseHeading line).1 }
  else if isCodeBlock line then { type := .code, content := line }
  else if isListItem line then { type := .list, content := line }
  else if isTaskItem line then
    { type := .taskList, taskData := some ⟨(parseTaskItem line).1, (parseTaskItem line).2⟩ }
  else if isQuote line then { type := .quote, content := line.drop 1 }
  else if isHorizontalRule line then { type := .horizontalRule }
  else { type := .paragraph, content := line }

/-- The fenced-code accumulation loop: buffer lines until a closing fence,
which is skipped.  Returns (buffered lines, remaining lines). -/
def fenceScan : List (List Char) → List (List Char) × List (List Char)
  | [] => ([], [])
  | l :: ls =>
    if isCodeBlockEnd l then ([], ls)
    else
      let p := fenceScan ls
      (l :: p.1, p.2)

/-- The per-line stripping of the quote branch: drop the leading `>` and at
most one following space. -/
def quoteStrip (l : List Char) : List Char :=
  if decide (l.length > 1) && (l.get? 1 == some ' ') then l.drop 2
  else if decide (l.length > 1) then l.drop 1
  else []

/-- The quote accumulation loop. -/
def quoteScan : List (List Char) → List (List Char) × List (List Char)
  | [] => ([], [])
  | l :: ls =>
    if isQuote l then
      let p := quoteScan ls
      (quoteStrip l :: p.1, p.2)
    else ([], l :: ls)

/-- Step 2 of Go parseTable: skip one separator row if present. -/
def tableSepSkip : List (List Char) → Option (List (List Char))
  | [] => some []
  | l :: rest =>
    match isTableSeparator l with
    | none => none
    | some b => some (if b then rest else l :: rest)

/-- Step 3 of Go parseTable: consume data rows while the line is a table line
and not a separator. -/
def tableRowsScan : List (List Char) → Option (List (List (List Char)) × List (List Char))
  | [] => some ([], [])
  | l :: ls =>
    if isTableLine l then
      match isTableSeparator l with
      | none => none
      | some true => some ([], l :: ls)
      | some false =>
        match splitTableRow l with
        | none => none
        | some row =>
          match tableRowsScan ls with
          | none => none
          | some (rows, rest) => some (row :: rows, rest)
    else some ([], l :: ls)

/-- Go parseTable: header row, optional separator, data rows.  Returns the
table data together with the unconsumed suffix (Go returns the end index). -/
def parseTable (lines : List (List Char)) : Option (TableData × List (List Char)) :=
  match lines with
  | [] => some (⟨[], []⟩, [])
  | l :: ls =>
    if isTableLine l then
      match splitTableRow l with
      | none => none
      | some headers =>
        match tableSepSkip ls with
        | none => none
        | some ls2 =>
          match tableRowsScan ls2 with
          | none => none
          | some (rows, rest) => some (⟨headers, rows⟩, rest)
    else
      match tableSepSkip (l :: ls) with
      | none => none
      | some ls2 =>
        match tableRowsScan ls2 with
        | none => none
        | some (rows, rest) => some (⟨[], rows⟩, rest)

theorem fenceScan_snd_length (ls : List (List Char)) :
    (fenceScan ls).2.length ≤ ls.length := by
  induction ls with
  | nil => simp [fenceScan]
  | cons l ls ih =>
    simp only [fenceScan]
    split
    · simp
    · simpa using Nat.le_succ_of_le ih

theorem quoteScan_snd_length (ls : List (List Char)) :
    (quoteScan ls).2.length ≤ ls.length := by
  induction ls with
  | nil => simp [quoteScan]
  | cons l ls ih =>
    simp only [quoteScan]
    split
    · simpa using Nat.le_succ_of_le ih
    · simp

theorem quoteScan_cons_of_quote {l : List Char} {ls : List (List Char)}
    (h : isQuote l = true) : (quoteScan (l :: ls)).2 = (quoteScan ls).2 := by
  simp [quoteScan, h]

theorem tableSepSkip_length {ls ls2 : List (List Char)}
    (h : tableSepSkip ls = some ls2) : ls2.length ≤ ls.length := by
  cases ls with
  | nil =>
    simp only [tableSepSkip, Option.some.injEq] at h
    subst h; exact Nat.le_refl _
  | cons l rest =>
    simp only [tableSepSkip] at h
    cases hsep : isTableSeparator l with
    | none => simp only [hsep] at h; exact Option.noConfusion h
    | some b =>
      simp only [hsep, Option.some.injEq] at h
      subst h
      cases b
      · exact Nat.le_refl _
      · exact Nat.le_succ_of_le (Nat.le_refl _)

theorem tableRowsScan_snd_length : ∀ {ls : List (List Char)}
    {rows : List (List (List Char))} {rest : List (List Char)},
    tableRowsScan ls = some (rows, rest) → rest.length ≤ ls.length := by
  intro ls
  induction ls with
  | nil =>
    intro rows rest h
    simp only [tableRowsScan, Option.some.injEq, Prod.mk.injEq] at h
    obtain ⟨-, h2⟩ := h
    subst h2
    exact Nat.le_refl _
  | cons l ls ih =>
    intro rows rest h
    simp only [tableRowsScan] at h
    by_cases htl : isTableLine l = true
    · rw [if_pos htl] at h
      cases hsep : isTableSeparator l with
      | none => simp only [hsep] at h; exact Option.noConfusion h
      | some b =>
        simp only [hsep] at h
        cases b with
        | true =>
          simp only [Option.some.injEq, Prod.mk.injEq] at h
          obtain ⟨-, h2⟩ := h
          subst h2
          exact Nat.le_refl _
        | false =>
          cases hsp : splitTableRow l with
          | none => simp only [hsp] at h; exact Option.noConfusion h
          | some row =>
            simp only [hsp] at h
            cases hrec : tableRowsScan ls with
            | none => simp only [hrec] at h; exact Option.noConfusion h
            | some p =>
              obtain ⟨rows2, rest2⟩ := p
              simp only [hrec, Option.some.injEq, Prod.mk.injEq] at h
              obtain ⟨-, h2⟩ := h
              subst h2
              exact Nat.le_succ_of_le (ih hrec)
    · rw [if_neg htl] at h
      simp only [Option.some.injEq, Prod.mk.injEq] at h
      obtain ⟨-, h2⟩ := h
      subst h2
      exact Nat.le_refl _

theorem parseTable_snd_length {l : List Char} {ls : List (List Char)}
    {td : TableData} {rest : List (List Char)}
    (hl : isTableLine l = true) (h : parseTable (l :: ls) = some (td, rest)) :
    rest.length ≤ ls.length := by
  simp only [parseTable, hl, if_true] at h
  cases hsp : splitTableRow l with
  | none => simp only [hsp] at h; exact Option.noConfusion h
  | some headers =>
    simp only [hsp] at h
    cases hskip : tableSepSkip ls with
    | none => simp only [hskip] at h; exact Option.noConfusion h
    | some ls2 =>
      simp only [hskip] at h
      cases hrows : tableRowsScan ls2 with
      | none => simp only [hrows] at h; exact Option.noConfusion h
      | some p =>
        obtain ⟨rows, rest2⟩ := p
        simp only [hrows, Option.some.injEq, Prod.mk.injEq] at h
        obtain ⟨-, h2⟩ := h
        subst h2
        exact Nat.le_trans (tableRowsScan_snd_length hrows) (tableSepSkip_length hskip)

/-- The cursor loop of Go ParseMarkdownBlock, expressed on the suffix of
still-unconsumed lines; `none` models a runtime panic in a callee. -/
def parseBlocksLoop : List (List Char) → Option (List MarkdownBlock)
  | [] => some []
  | line :: rest =>
    if isCodeBlock line = true then
      match goSliceFrom line 3 with
      | none => none
      | some rawLang =>
        let lang := trimSpace rawLang
        let p := fenceScan rest
        let content :=
          if decide (p.1.length > 0) then
            if decide (lang.length > 0) then lang ++ '\n' :: joinLines p.1 else joinLines p.1
          else []
        match parseBlocksLoop p.2 with
        | none => none
        | some bs => some ({ type := .code, content := content } :: bs)
    else if hq : isQuote line = true then
      let p := quoteScan (line :: rest)
      match parseBlocksLoop p.2 with
      | none => none
      | some bs => some ({ type := .quote, content := joinLines p.1 } :: bs)
    else if ht : isTableLine line = true then
      match htab : parseTable (line :: rest) with
      | none => none
      | some (td, rest2) =>
        match parseBlocksLoop rest2 with
        | none => none
        | some bs =>
          if decide (td.headers.length > 0) then
            some ({ type := .table, tableData := some td } :: bs)
          else some bs
    else
      let b := parseLine line
      match parseBlocksLoop rest with
      | none => none
      | some bs => if b.type ≠ BlockType.empty then some (b :: bs) else some bs
termination_by lines => lines.length
decreasing_by
  · exact Nat.lt_succ_of_le (fenceScan_snd_length _)
  · rw [quoteScan_cons_of_quote hq]
    exact Nat.lt_succ_of_le (quoteScan_snd_length _)
  · exact Nat.lt_succ_of_le (parseTable_snd_length ht htab)
  · exact Nat.lt_succ_of_le (Nat.le_refl _)

/-- Go ParseMarkdownBlock; the second component is Go's error return, which
the source always sets to nil. -/
def ParseMarkdownBlock (markdown : List Char) :
    Option (List MarkdownBlock × Option (List Char)) :=
  (parseBlocksLoop (splitLines markdown)).map fun bs => (bs, none)

/-! ### Inline parser (wherite_markdown.go, ParseInlines) -/

/-- The depth-counting loop of Go parseInlineLink, scanning a suffix
(`s = text.drop idx`); Go decrements and stops when the depth reaches 0. -/
def findCloseParenAux : List Char → Nat → Int → Option Nat
  | [], _, _ => none
  | c :: rest, idx, depth =>
    if c == '(' then findCloseParenAux rest (idx + 1) (depth + 1)
    else if c == ')' then
      if depth - 1 == 0 then some idx else findCloseParenAux rest (idx + 1) (depth - 1)
    else findCloseParenAux rest (idx + 1) depth

def findCloseParen (text : List Char) (start : Nat) (depth : Int) : Option Nat :=
  findCloseParenAux (text.drop start) start depth

/-- Go parseInlineLink: resolve `[text](url)` or `![alt](url)` at `start`.
Go returns `(start, nil)` on failure and the caller tests the pointer, so the
failure cases collapse to `none`. -/
def parseInlineLink (text : List Char) (start : Nat) : Option (Nat × InlineElement) :=
  match text.get? start with
  | none => none
  | some c0 =>
    if !(c0 == '[' || c0 == '!') then none
    else
      let isImage := c0 == '!'
      match (if isImage then
               if text.get? (start + 1) == some '[' then some (start + 2) else none
             else some (start + 1) : Option Nat) with
      | none => none
      | some searchStart =>
        match findNextByte text searchStart ']' with
        | none => none
        | some closeBracket =>
          if !(text.get? (closeBracket + 1) == some '(') then none
          else
            match findCloseParen text (closeBracket + 2) 1 with
            | none => none
            | some closeParen =>
              let linkText :=
                if isImage then extract text searchStart closeBracket
                else extract text (start + 1) closeBracket
              some (closeParen + 1,
                { type := InlineTypeLink, text := linkText,
                  url := extract text (closeBracket + 2) closeParen })

/-- Go's in-place retagging of the recursively parsed inner spans: the first
element's type is overwritten; a non-empty unparsed run becomes one element. -/
def retagOrMake (t : InlineType) (innerText : List Char) :
    List InlineElement → List InlineElement
  | [] => if decide (innerText.length > 0) then [{ type := t, text := innerText }] else []
  | e :: es => { e with type := t } :: es

/-- The sentence punctuation excluded before a closing single emphasis marker. -/
def isSentencePunct (c : Char) : Bool :=
  c == '.' || c == ',' || c == '!' || c == '?' || c == ':' || c == ';'

/-- The punctuation-stripping loop of the single-emphasis branch:
`for end > i+1 && punct(text[end-1]) { end-- }`. -/
def stripPunct (text : List Char) (i : Nat) : Nat → Nat
  | 0 => 0
  | e + 1 =>
    if decide (i + 1 < e + 1) && (match text.get? e with
        | some c => isSentencePunct c
        | none => false) then
      stripPunct text i e
    else e + 1

/-- The characters at which the plain-text run of ParseInlines stops. -/
def isSpecialInline (c : Char) : Bool :=
  c == '*' || c == '_' || c == '`' || c == '~' || c == '[' || c == '!'

def scanPlainAux : List Char → Nat → Nat
  | [], idx => idx
  | c :: rest, idx => if isSpecialInline c then idx else scanPlainAux rest (idx + 1)

/-- The plain-text accumulation loop: first index `j ≥ i` holding a special
character, or the end of the text. -/
def scanPlain (text : List Char) (i : Nat) : Nat :=
  scanPlainAux (text.drop i) i

/-- The scan loop of Go ParseInlines at position `i`, with fuel: `none` means
the computation did not finish within `fuel` steps.  The source function
diverges on some inputs (a `~` not followed by a second `~` is consumed by no
branch and the plain-text run stops in front of it without advancing), so a
total embedding must be fuelled. -/
def parseInlinesAux : Nat → List Char → Nat → Option (List InlineElement)
  | 0, _, _ => none
  | fuel + 1, text, i =>
    match text.get? i with
    | none => some []
    | some c =>
      if c == '[' || c == '!' then
        match parseInlineLink text i with
        | some (newPos, elem) =>
          match parseInlinesAux fuel text newPos with
          | none => none
          | some rest => some (elem :: rest)
        | none => parseInlinesAux fuel text (i + 1)
      else if c == '`' then
        match findNextByte text (i + 1) '`' with
        | some e =>
          match parseInlinesAux fuel text (e + 1) with
          | none => none
          | some rest =>
            some ({ type := InlineTypeCode, text := extract text (i + 1) e } :: rest)
        | none => parseInlinesAux fuel text (i + 1)
      else if c == '~' && text.get? (i + 1) == some '~' then
        match findNextStr text (i + 2) "~~".data with
        | some e =>
          match parseInlinesAux fuel text (e + 2) with
          | none => none
          | some rest =>
            some ({ type := InlineTypeStrike, text := extract text (i + 2) e } :: rest)
        | none => parseInlinesAux fuel text (i + 2)
      else if (c == '*' || c == '_') && text.get? (i + 1) == some c
          && text.get? (i + 2) == some c then
        match findNextStr text (i + 3) [c, c, c] with
        | some e =>
          let innerText := extract text (i + 3) e
          match parseInlinesAux fuel innerText 0 with
          | none => none
          | some inner =>
            match parseInlinesAux fuel text (e + 3) with
            | none => none
            | some rest => some (retagOrMake (InlineTypeBold ||| 0x10) innerText inner ++ rest)
        | none => parseInlinesAux fuel text (i + 3)
      else if (c == '*' || c == '_') && text.get? (i + 1) == some c then
        match findNextStr text (i + 2) [c, c] with
        | some e =>
          let innerText := extract text (i + 2) e
          match parseInlinesAux fuel innerText 0 with
          | none => none
          | some inner =>
            match parseInlinesAux fuel text (e + 2) with
            | none => none
            | some rest => some (retagOrMake InlineTypeBold innerText inner ++ rest)
        | none => parseInlinesAux fuel text (i + 2)
      else if c == '*' || c == '_' then
        match findNextByte text (i + 1) c with
        | some e0 =>
          let e := stripPunct text i e0
          if decide (e > i) then
            match parseInlinesAux fuel text e with
            | none => none
            | some rest =>
              some ({ type := InlineTypeItalic, text := extract text (i + 1) e } :: rest)
          else parseInlinesAux fuel text (i + 1)
        | none => parseInlinesAux fuel text (i + 1)
      else
        let j := scanPlain text i
        if decide (i < j) then
          match parseInlinesAux fuel text j with
          | none => none
          | some rest => some ({ type := InlineTypeText, text := extract text i j } :: rest)
        else parseInlinesAux fuel text j

/-- Go ParseInlines, fuelled. -/
def ParseInlines (fuel : Nat) (text : List Char) : Option (List InlineElement) :=
  parseInlinesAux fuel text 0

/-! ### Syntax tokenizer (part_005) -/

inductive TokenType
  | text | heading | bold | italic | codeInline | codeBlock | list | link | quote
deriving DecidableEq, Repr

structure SyntaxToken where
  type : TokenType
  startPos : Nat
  endPos : Nat
  text : List Char
deriving DecidableEq, Repr

/-- The scan loop of Go findClosing over the suffix `s = text.drop idx`: the
first index strictly greater than `start` at which `marker` occurs (a match at
`start` itself is skipped and the scan continues). -/
def findClosingAux (marker : List Char) : List Char → Nat → Nat → Option Nat
  | [], _, _ => none
  | c :: rest, idx, start =>
    if marker.isPrefixOf (c :: rest) && decide (idx > start) then some idx
    else findClosingAux marker rest (idx + 1) start

/-- Go findClosing (part_005). -/
def findClosing (text : List Char) (start : Nat) (marker : List Char) : Option Nat :=
  findClosingAux marker (text.drop start) start start

/-- Go strings.Index. -/
def strIndex (s pat : List Char) : Option Nat :=
  scanPrefixFrom pat s 0

/-- Go LinkMatch (part_005); `endIdx` is the source's `end` field. -/
structure LinkMatch where
  text : List Char
  url : List Char
  endIdx : Nat
deriving DecidableEq, Repr

/-- Go findLink (part_005): a bracketed link with the nearest `]` and `)`
(no depth counting here, unlike parseInlineLink). -/
def findLink (text : List Char) (start : Nat) : Option LinkMatch :=
  if decide (start + 1 ≥ text.length) || !(text.get? start == some '[') then none
  else
    match strIndex (text.drop start) "]".data with
    | none => none
    | some endBracket =>
      let linkText := extract text (start + 1) (start + endBracket)
      let afterBracket := start + endBracket + 1
      if decide (afterBracket ≥ text.length) || !(text.get? afterBracket == some '(') then none
      else
        match strIndex (text.drop afterBracket) ")".data with
        | none => none
        | some endParen =>
          some { text := linkText,
                 url := extract text (afterBracket + 1) (afterBracket + endParen),
                 endIdx := afterBracket + endParen + 1 }

/-- Guard and closer search of the `**` branch of highlightInlineSyntax. -/
def tryBold (line : List Char) (pos : Nat) : Option Nat :=
  if decide (pos + 2 < line.length) && extract line pos (pos + 2) == "**".data then
    findClosing line (pos + 2) "**".data
  else none

/-- Guard, closer search and opener-context check of the `*` branch of
highlightInlineSyntax: the opener must not be immediately preceded by `*`. -/
def tryItalic (line : List Char) (pos : Nat) : Option Nat :=
  if decide (pos + 1 < line.length) && extract line pos (pos + 1) == "*".data then
    match findClosing line (pos + 1) "*".data with
    | none => none
    | some e => if pos == 0 || !(line.get? (pos - 1) == some '*') then some e else none
  else none

/-- Guard and closer search of the backtick branch of highlightInlineSyntax. -/
def tryCode (line : List Char) (pos : Nat) : Option Nat :=
  if decide (pos + 1 < line.length) && extract line pos (pos + 1) == "`".data then
    findClosing line (pos + 1) "`".data
  else none

/-- The `if pos > startPos` leading-text emission of highlightInlineSyntax
(the source compares the line-relative `pos` with the absolute `startPos`). -/
def leadingTextToken (line : List Char) (startPos pos : Nat) : List SyntaxToken :=
  if decide (pos > startPos) then
    [{ type := .text, startPos := startPos + pos, endPos := startPos + pos,
       text := line.take pos }]
  else []

/-- The loop of Go highlightInlineSyntax, fuelled.  On a match the source
truncates `line` to the text after the construct and resets `pos` to 0, but
keeps adding token offsets to the unchanged `startPos` base. -/
def highlightInlineAux : Nat → List Char → Nat → Nat → Option (List SyntaxToken)
  | 0, _, _, _ => none
  | fuel + 1, line, startPos, pos =>
    if decide (pos < line.length) then
      match tryBold line pos with
      | some e =>
        match highlightInlineAux fuel (line.drop (e + 2)) startPos 0 with
        | none => none
        | some ts =>
          some (leadingTextToken line startPos pos ++
            { type := .bold, startPos := startPos + pos, endPos := startPos + e,
              text := extract line (pos + 2) e } :: ts)
      | none =>
        match tryItalic line pos with
        | some e =>
          match highlightInlineAux fuel (line.drop (e + 1)) startPos 0 with
          | none => none
          | some ts =>
            some (leadingTextToken line startPos pos ++
              { type := .italic, startPos := startPos + pos, endPos := startPos + e,
                text := extract line (pos + 1) e } :: ts)
        | none =>
          match tryCode line pos with
          | some e =>
            match highlightInlineAux fuel (line.drop (e + 1)) startPos 0 with
            | none => none
            | some ts =>
              some (leadingTextToken line startPos pos ++
                { type := .codeInline, startPos := startPos + pos, endPos := startPos + e,
                  text := extract line (pos + 1) e } :: ts)
          | none =>
            match findLink line pos with
            | some lm =>
              match highlightInlineAux fuel (line.drop lm.endIdx) startPos 0 with
              | none => none
              | some ts =>
                some (leadingTextToken line startPos pos ++
                  { type := .link, startPos := startPos + pos, endPos := startPos + lm.endIdx,
                    text := lm.text } :: ts)
            | none => highlightInlineAux fuel line startPos (pos + 1)
    else
      some (if decide (line.length > 0) then
        [{ type := .text, startPos := startPos, endPos := startPos + line.length, text := line }]
      else [])

/-- Go isHeadingLine (part_005). -/
def isHeadingLine (line : List Char) : Bool :=
  decide (line.length > 0) && line.get? 0 == some '#'

/-- Go isCodeBlockLine (part_005): no whitespace trimming, unlike isCodeBlock. -/
def isCodeBlockLine (line : List Char) : Bool :=
  decide (line.length ≥ 3) && (line.take 3 == "```".data || line.take 3 == "~~~".data)

/-- Go isListItemLine (part_005), a duplicate of isListItem. -/
def isListItemLine (line : List Char) : Bool :=
  if line.length == 0 then false
  else if (line.get? 0 == some '-' || line.get? 0 == some '*') && line.get? 1 == some ' ' then
    true
  else if (match line.get? 0 with
            | some c => decide ('0' ≤ c) && decide (c ≤ '9')
            | none => false)
          && line.get? 1 == some '.' && line.get? 2 == some ' ' then
    true
  else false

/-- Go isQuoteLine (part_005). -/
def isQuoteLine (line : List Char) : Bool :=
  decide (line.length > 0) && line.get? 0 == some '>'

/-- Go highlightLine (part_005). -/
def highlightLine (fuel : Nat) (line : List Char) (startPos : Nat) :
    Option (List SyntaxToken) :=
  if isHeadingLine line then
    some [{ type := .heading, startPos := startPos, endPos := startPos + line.length,
            text := trimLeftCutset "# ".data line }]
  else if isCodeBlockLine line then
    some [{ type := .codeBlock, startPos := startPos, endPos := startPos + line.length,
            text := line }]
  else if isListItemLine line then
    some [{ type := .list, startPos := startPos, endPos := startPos + line.length,
            text := line }]
  else if isQuoteLine line then
    some [{ type := .quote, startPos := startPos, endPos := startPos + line.length,
            text := trimLeftCutset "> ".data line }]
  else highlightInlineAux fuel line startPos 0

/-- Go strings.Split on newline: unlike splitLines, a trailing empty segment
is kept. -/
def splitKeepAux : List Char → List Char → List (List Char)
  | [], cur => [cur]
  | c :: cs, cur =>
    if c == '\n' then cur :: splitKeepAux cs []
    else splitKeepAux cs (cur ++ [c])

def splitKeep (text : List Char) : List (List Char) :=
  splitKeepAux text []

/-- The per-line loop of Go HighlightMarkdown, carrying the running byte
offset `currentPos`. -/
def highlightAll (fuel : Nat) : List (List Char) → Nat → Option (List SyntaxToken)
  | [], _ => some []
  | l :: ls, cur =>
    match highlightLine fuel l cur with
    | none => none
    | some ts =>
      match highlightAll fuel ls (cur + l.length + 1) with
      | none => none
      | some ts2 => some (ts ++ ts2)

/-- Go HighlightMarkdown (part_005), fuelled through highlightInlineAux. -/
def HighlightMarkdown (fuel : Nat) (text : List Char) : Option (List SyntaxToken) :=
  highlightAll fuel (splitKeep text) 0

/-! ### Basic lemmas about trimming -/

theorem trimLeftSpace_length_le (l : List Char) : (trimLeftSpace l).length ≤ l.length := by
  induction l with
  | nil => simp [trimLeftSpace]
  | cons c cs ih =>
    simp only [trimLeftSpace]
    split
    · exact Nat.le_succ_of_le ih
    · exact Nat.le_refl _

theorem trimSpace_length_le (l : List Char) : (trimSpace l).length ≤ l.length := by
  have h1 := trimLeftSpace_length_le (trimRightSpace l)
  have h2 := trimLeftSpace_length_le l.reverse
  simp only [trimSpace, trimRightSpace] at *
  simpa using le_trans h1 (by simpa using h2)

theorem trimLeftSpace_eq_nil_iff (l : List Char) :
    trimLeftSpace l = [] ↔ l.all isSpaceChar = true := by
  induction l with
  | nil => simp [trimLeftSpace]
  | cons c cs ih =>
    simp only [trimLeftSpace, List.all_cons, Bool.and_eq_true]
    split
    · rename_i hc
      simp [hc, ih]
    · rename_i hc
      simp [hc]

theorem trimLeftSpace_all_iff (l : List Char) :
    (trimLeftSpace l).all isSpaceChar = l.all isSpaceChar := by
  induction l with
  | nil => simp [trimLeftSpace]
  | cons c cs ih =>
    simp only [trimLeftSpace]
    split
    · rename_i hc
      simp [hc, ih]
    · rfl

theorem trimSpace_eq_nil_iff (l : List Char) :
    trimSpace l = [] ↔ l.all isSpaceChar = true := by
  simp only [trimSpace, trimRightSpace]
  rw [trimLeftSpace_eq_nil_iff]
  rw [List.all_reverse, trimLeftSpace_all_iff, List.all_reverse]

/-! ### Absence of runtime panics in the block-parser path -/

theorem isCodeBlock_length_ge {l : List Char} (h : isCodeBlock l = true) :
    3 ≤ l.length := by
  by_contra hlt
  push_neg at hlt
  have ht : (trimSpace l).length < 3 := lt_of_le_of_lt (trimSpace_length_le l) hlt
  simp only [isCodeBlock] at h
  rw [if_pos ht] at h
  exact Bool.noConfusion h

theorem splitTableRow_isSome {row : List Char} (h : trimSpace row ≠ []) :
    (splitTableRow row).isSome = true := by
  simp only [splitTableRow]
  cases ht : trimSpace row with
  | nil => exact absurd ht h
  | cons c rest => simp

theorem isTableLine_trim_ne_nil {l : List Char} (h : isTableLine l = true) :
    trimSpace l ≠ [] := by
  simp only [isTableLine, Bool.and_eq_true, decide_eq_true_eq] at h
  intro hnil
  rw [hnil] at h
  simp at h

theorem isTableSeparator_isSome (l : List Char) : (isTableSeparator l).isSome = true := by
  simp only [isTableSeparator]
  split
  · simp
  · rename_i hcond
    simp only [Bool.or_eq_true, decide_eq_true_eq, Bool.not_eq_true', beq_eq_false_iff_ne,
      not_or, not_lt, not_not] at hcond
    obtain ⟨-, hpipe'⟩ := hcond
    have hne : trimSpace (trimSpace l) ≠ [] := by
      intro hnil
      rw [trimSpace_eq_nil_iff] at hnil
      have hmem : '|' ∈ trimSpace l := by
        have := hpipe'
        exact List.get?_mem this
      have := List.all_eq_true.mp hnil _ hmem
      simp [isSpaceChar] at this
    have := splitTableRow_isSome hne
    cases hsp : splitTableRow (trimSpace l) with
    | none => rw [hsp] at this; simp at this
    | some cells => simp

theorem tableSepSkip_isSome (ls : List (List Char)) : (tableSepSkip ls).isSome = true := by
  cases ls with
  | nil => simp [tableSepSkip]
  | cons l rest =>
    simp only [tableSepSkip]
    cases hsep : isTableSeparator l with
    | none =>
      have := isTableSeparator_isSome l
      rw [hsep] at this
      simp at this
    | some b => simp

theorem tableRowsScan_isSome (ls : List (List Char)) : (tableRowsScan ls).isSome = true := by
  induction ls with
  | nil => simp [tableRowsScan]
  | cons l rest ih =>
    simp only [tableRowsScan]
    by_cases htl : isTableLine l = true
    · rw [if_pos htl]
      cases hsep : isTableSeparator l with
      | none =>
        have := isTableSeparator_isSome l
        rw [hsep] at this
        simp at this
      | some b =>
        cases b with
        | true => simp
        | false =>
          cases hsp : splitTableRow l with
          | none =>
            have := splitTableRow_isSome (isTableLine_trim_ne_nil htl)
            rw [hsp] at this
            simp at this
          | some row =>
            cases hrec : tableRowsScan rest with
            | none => rw [hrec] at ih; simp at ih
            | some p => simp
    · rw [if_neg htl]
      simp

theorem parseTable_isSome (ls : List (List Char)) : (parseTable ls).isSome = true := by
  cases ls with
  | nil => simp [parseTable]
  | cons l rest =>
    simp only [parseTable]
    by_cases htl : isTableLine l = true
    · rw [if_pos htl]
      cases hsp : splitTableRow l with
      | none =>
        have := splitTableRow_isSome (isTableLine_trim_ne_nil htl)
        rw [hsp] at this
        simp at this
      | some headers =>
        cases hskip : tableSepSkip rest with
        | none =>
          have := tableSepSkip_isSome rest
          rw [hskip] at this
          simp at this
        | some ls2 =>
          cases hrows : tableRowsScan ls2 with
          | none =>
            have := tableRowsScan_isSome ls2
            rw [hrows] at this
            simp at this
          | some p =>
            obtain ⟨rows2, rest2⟩ := p
            simp [hrows]
    · rw [if_neg htl]
      cases hskip : tableSepSkip (l :: rest) with
      | none =>
        have := tableSepSkip_isSome (l :: rest)
        rw [hskip] at this
        simp at this
      | some ls2 =>
        cases hrows : tableRowsScan ls2 with
        | none =>
          have := tableRowsScan_isSome ls2
          rw [hrows] at this
          simp at this
        | some p =>
          obtain ⟨rows2, rest2⟩ := p
          simp [hrows]

theorem parseBlocksLoop_isSome (lines : List (List Char)) :
    (parseBlocksLoop lines).isSome = true := by
  induction lines using parseBlocksLoop.induct with
  | case1 => simp [parseBlocksLoop]
  | case2 l ls hc hslice =>
    exfalso
    simp only [goSliceFrom] at hslice
    rw [if_pos (isCodeBlock_length_ge hc)] at hslice
    exact Option.noConfusion hslice
  | case3 l ls hc rawLang hslice p hrec ih =>
    exfalso
    rw [hrec] at ih
    simp at ih
  | case4 l ls hc rawLang hslice p bs hrec ih =>
    simp only [parseBlocksLoop]
    rw [if_pos hc, hslice, hrec]
    simp
  | case5 l ls hc hq p hrec ih =>
    exfalso
    rw [hrec] at ih
    simp at ih
  | case6 l ls hc hq p bs hrec ih =>
    have hrec2 : parseBlocksLoop (quoteScan (l :: ls)).2 = some bs := hrec
    simp only [parseBlocksLoop]
    rw [if_neg hc, dif_pos hq, hrec2]
    simp
  | case7 l ls hc hq ht hpt =>
    exfalso
    have := parseTable_isSome (l :: ls)
    rw [hpt] at this
    simp at this
  | case8 l ls hc hq ht td rest2 hpt hrec ih =>
    exfalso
    rw [hrec] at ih
    simp at ih
  | case9 l ls hc hq ht td rest2 hpt bs hrec hh ih =>
    simp only [parseBlocksLoop]
    rw [if_neg hc, dif_neg hq, dif_pos ht]
    split
    · rename_i heq
      rw [hpt] at heq
      exact Option.noConfusion heq
    · rename_i td2 rest3 heq
      rw [hpt] at heq
      obtain ⟨rfl, rfl⟩ : td = td2 ∧ rest2 = rest3 := by
        have := Option.some.inj heq
        exact ⟨congrArg Prod.fst this, congrArg Prod.snd this⟩
      rw [hrec]
      simp [hh]
  | case10 l ls hc hq ht td rest2 hpt bs hrec hh ih =>
    simp only [parseBlocksLoop]
    rw [if_neg hc, dif_neg hq, dif_pos ht]
    split
    · rename_i heq
      rw [hpt] at heq
      exact Option.noConfusion heq
    · rename_i td2 rest3 heq
      rw [hpt] at heq
      obtain ⟨rfl, rfl⟩ : td = td2 ∧ rest2 = rest3 := by
        have := Option.some.inj heq
        exact ⟨congrArg Prod.fst this, congrArg Prod.snd this⟩
      rw [hrec]
      simp [hh]
  | case11 l ls hc hq ht hrec ih =>
    exfalso
    rw [hrec] at ih
    simp at ih
  | case12 l ls hc hq ht b bs hrec hne ih =>
    simp only [parseBlocksLoop]
    rw [if_neg hc, dif_neg hq, dif_neg ht, hrec]
    split
    · rename_i heq
      exact Option.noConfusion heq
    · split <;> simp
  | case13 l ls hc hq ht b bs hrec hne ih =>
    simp only [parseBlocksLoop]
    rw [if_neg hc, dif_neg hq, dif_neg ht, hrec]
    split
    · rename_i heq
      exact Option.noConfusion heq
    · split <;> simp

/-! ### Supporting lemmas for the claims -/

theorem fenceScan_no_end {ls : List (List Char)} (h : ∀ l ∈ ls, isCodeBlockEnd l = false) :
    fenceScan ls = (ls, []) := by
  induction ls with
  | nil => rfl
  | cons l rest ih =>
    simp only [fenceScan]
    rw [if_neg]
    · rw [ih fun x hx => h x (List.mem_cons_of_mem _ hx)]
    · simp [h l (List.mem_cons_self _ _)]

/-- The number of leading `#` characters of a line. -/
def countLeadingHashes : List Char → Nat
  | [] => 0
  | c :: rest => if c == '#' then countLeadingHashes rest + 1 else 0

theorem headingLevelAux_min : ∀ (l : List Char) (lvl : Nat), lvl ≤ 6 →
    headingLevelAux l lvl = min (lvl + countLeadingHashes l) 7 := by
  intro l
  induction l with
  | nil =>
    intro lvl h
    simp only [headingLevelAux, countLeadingHashes]
    omega
  | cons c rest ih =>
    intro lvl h
    simp only [headingLevelAux, countLeadingHashes]
    by_cases hc : (c == '#') = true
    · rw [if_pos hc, if_pos hc]
      by_cases h6 : lvl + 1 > 6
      · rw [if_pos h6]
        omega
      · rw [if_neg h6]
        rw [ih (lvl + 1) (by omega)]
        omega
    · rw [if_neg hc, if_neg hc]
      omega

/-- The specification of the tokenizer's closing-marker search for a
one-character marker: the result is the first occurrence of the marker
strictly after `start`, with no occurrence-based look at the character
preceding the closer. -/
theorem findClosingAux_single_spec (c : Char) (text : List Char) :
    ∀ (s : List Char) (idx start j : Nat), s = text.drop idx →
      findClosingAux [c] s idx start = some j →
      start < j ∧ text.get? j = some c ∧
        ∀ k, idx ≤ k → start < k → k < j → text.get? k ≠ some c := by
  intro s
  induction s with
  | nil =>
    intro idx start j hs h
    exact Option.noConfusion h
  | cons a rest ih =>
    intro idx start j hs h
    have hhead : text.get? idx = some a := by
      have h0 : (text.drop idx).get? 0 = some a := by rw [← hs]; rfl
      rwa [List.get?_drop, Nat.add_zero] at h0
    have htail : rest = text.drop (idx + 1) := by
      have : (text.drop idx).tail = text.drop (idx + 1) := List.tail_drop text idx
      rw [← hs] at this
      exact this.symm ▸ rfl
    simp only [findClosingAux] at h
    by_cases hcond : ([c].isPrefixOf (a :: rest) && decide (idx > start)) = true
    · rw [if_pos hcond] at h
      simp only [Option.some.injEq] at h
      subst h
      simp only [Bool.and_eq_true, decide_eq_true_eq] at hcond
      obtain ⟨hpre, hgt⟩ := hcond
      have ha : a = c := by
        simp only [List.isPrefixOf, Bool.and_eq_true, beq_iff_eq] at hpre
        exact hpre.1.symm
      subst ha
      exact ⟨hgt, hhead, fun k h1 h2 h3 => absurd (by omega : idx < idx) (lt_irrefl idx)⟩
    · rw [if_neg hcond] at h
      have hrec := ih (idx + 1) start j htail h
      refine ⟨hrec.1, hrec.2.1, ?_⟩
      intro k hk1 hk2 hk3
      rcases Nat.eq_or_lt_of_le hk1 with heq | hlt
      · subst heq
        intro hget
        simp only [Bool.and_eq_true, decide_eq_true_eq, not_and_or] at hcond
        rcases hcond with hnp | hns
        · have : a = c := by
            rw [hhead] at hget
            exact Option.some.inj hget
          subst this
          simp [List.isPrefixOf] at hnp
        · exact hns hk2
      · exact hrec.2.2 k hlt hk2 hk3

theorem findClosing_single_spec {c : Char} {text : List Char} {start j : Nat}
    (h : findClosing text start [c] = some j) :
    start < j ∧ text.get? j = some c ∧
      ∀ k, start < k → k < j → text.get? k ≠ some c := by
  have := findClosingAux_single_spec c text (text.drop start) start start j rfl h
  exact ⟨this.1, this.2.1, fun k h1 h2 => this.2.2 k (Nat.le_of_lt h1) h1 h2⟩

/-- The content of the emitted CodeFence block, as built by the fence branch
of ParseMarkdownBlock from a language tag and the buffered lines. -/
def fenceContent (lang : List Char) (codeLines : List (List Char)) : List Char :=
  if decide (codeLines.length > 0) then
    if decide (lang.length > 0) then lang ++ '\n' :: joinLines codeLines
    else joinLines codeLines
  else []

/-- Concatenation of the visible text fields of a sequence of inline spans. -/
def inlineTextConcat : List InlineElement → List Char
  | [] => []
  | e :: es => e.text ++ inlineTextConcat es

/-! ### The claims -/

/-- C1: the claim states that the Block Parser followed by the Inline Parser
terminates on every input and that a blank line yields no Block.  The code
violates the termination half: the input consisting of a single tilde is
parsed into one Paragraph block whose content is that tilde, and ParseInlines
then fails to terminate on it — a `~` not followed by a second `~` is
consumed by no branch, while the plain-text run stops in front of it without
advancing the scan position, so no amount of fuel completes the computation. -/
theorem c1_inline_parser_diverges :
    ParseMarkdownBlock "~".data =
      some ([{ type := .paragraph, content := "~".data }], none) ∧
    ∀ fuel, ParseInlines fuel "~".data = none := by
  constructor
  · have hs : splitLines "~".data = ["~".data] := rfl
    rw [ParseMarkdownBlock, hs]
    simp only [parseBlocksLoop]
    rw [if_neg (by decide : ¬isCodeBlock "~".data = true),
        dif_neg (by decide : ¬isQuote "~".data = true),
        dif_neg (by decide : ¬isTableLine "~".data = true),
        show parseLine "~".data = { type := .paragraph, content := "~".data } from rfl]
    simp
  · intro fuel
    induction fuel with
    | zero => rfl
    | succ n ih =>
      show parseInlinesAux (n + 1) "~".data 0 = none
      rw [show parseInlinesAux (n + 1) "~".data 0 = parseInlinesAux n "~".data 0 from rfl]
      exact ih

/-- C2: the claim states that every token of HighlightMarkdown carries byte
offsets into the original full text, in particular for the second and later
inline tokens of one line.  The code violates this: after emitting an inline
token it truncates the line but keeps the stale offset base, so on the line
consisting of two bold spans the second Bold token is emitted with
startPos 1 and endPos 4, although its construct occupies bytes 6 to 11 of the
original buffer (second conjunct). -/
theorem c2_token_offsets_not_absolute :
    HighlightMarkdown 100 "**a** **b**".data = some
      [{ type := .bold, startPos := 0, endPos := 3, text := "a".data },
       { type := .text, startPos := 1, endPos := 1, text := " ".data },
       { type := .bold, startPos := 1, endPos := 4, text := "b".data }] ∧
    extract "**a** **b**".data 6 11 = "**b**".data :=
  ⟨rfl, rfl⟩

/-- C3 counterexample: the claim states the parsed heading level is the
count of leading `#` capped at 6, with `"####### a"` parsing to level 6.
The code increments the level before testing the cap, so seven leading `#`
produce level 7 (and the seventh `#` is consumed by the marker run, so the
content is `"a"`, not a string beginning with `#`). -/
theorem c3_heading_cap_counterexample :
    parseHeading "####### a".data = (7, "a".data) ∧ (7 : Nat) ≠ 6 :=
  ⟨rfl, by decide⟩

/-- C3 amended: the parsed heading level equals the count of leading `#`
capped at 7 — the loop increments before testing `level > 6`, so the seventh
`#` still raises the level and is consumed by the marker run; from the eighth
`#` on, the excess `#` bytes are left in the content. -/
theorem c3_heading_cap_amended :
    (∀ line : List Char, (parseHeading line).1 = min (countLeadingHashes line) 7) ∧
    parseHeading "# a".data = (1, "a".data) ∧
    parseHeading "####### a".data = (7, "a".data) ∧
    parseHeading "######## a".data = (7, "# a".data) := by
  refine ⟨?_, rfl, rfl, rfl⟩
  intro line
  show headingLevelAux line 0 = min (countLeadingHashes line) 7
  simpa using headingLevelAux_min line 0 (by omega)

/-- C4: the claim states that concatenating the Text fields of the inline
spans reproduces the block content modulo matched-construct delimiters.  The
code violates this: on `"*lonely"` the unmatched `*` belongs to no matched
construct, yet the concatenation of all emitted Text fields is `"lonely"` —
the triggering marker byte is silently dropped from the output. -/
theorem c4_roundtrip_loses_unmatched_marker :
    (ParseInlines 100 "*lonely".data).map inlineTextConcat = some "lonely".data ∧
    "lonely".data ≠ "*lonely".data :=
  ⟨rfl, by decide⟩

/-- C5: the claim states that an inline marker without a matching closer is
kept as ordinary text, with ParseInlines on `"*lonely"` yielding a single
Text element `"*lonely"`.  The code advances past the marker without ever
emitting it: the output is a single Text element `"lonely"`. -/
theorem c5_unmatched_marker_dropped :
    ParseInlines 100 "*lonely".data =
      some [{ type := InlineTypeText, text := "lonely".data }] ∧
    ({ type := InlineTypeText, text := "lonely".data } : InlineElement) ≠
      { type := InlineTypeText, text := "*lonely".data } :=
  ⟨rfl, by decide⟩

/-- C6: the claim states that splitTableRow tracks an inside-code-span
backtick latch so that a `|` between backticks does not separate cells, the
row `"| `a|b` | c |"` splitting into the two cells `` `a|b` `` and `c`.
The code violates this: the `depth` latch is declared but never modified and
the backtick branch is identical to the default branch, so the row splits at
the backticked `|` into three cells. -/
theorem c6_backtick_latch_ineffective :
    splitTableRow "| `a|b` | c |".data =
      some ["`a".data, "b`".data, "c".data] ∧
    ["`a".data, "b`".data, "c".data] ≠ ["`a|b`".data, "c".data] :=
  ⟨rfl, by decide⟩

/-- C7 counterexample: the claim states the tokenizer closes a single `*` or
`_` emphasis span at the first marker whose immediately preceding character
differs from the marker, the rule applying to both markers.  On `"***x"` the
code emits an Italic token closed at index 2 although the preceding byte (at
index 1) is `*`; and `"_a_"` produces a single plain Text token, because the
tokenizer has no `_` branch at all. -/
theorem c7_tokenizer_emphasis_counterexample :
    HighlightMarkdown 100 "***x".data = some
      [{ type := .italic, startPos := 0, endPos := 2, text := "*".data },
       { type := .text, startPos := 0, endPos := 1, text := "x".data }] ∧
    "***x".data.get? 1 = some '*' ∧
    HighlightMarkdown 100 "_a_".data = some
      [{ type := .text, startPos := 0, endPos := 3, text := "_a_".data }] :=
  ⟨rfl, rfl, rfl⟩

/-- C7 amended: in the Syntax Tokenizer an emphasis span opened by a single
`*` (the `_` marker is not recognised at all — second conjunct) is closed at
the first subsequent `*` lying strictly after the search start: the closer
candidates are not filtered by their preceding character, and there is no
trailing-punctuation exclusion.  The first conjunct characterises the
closing search findClosing for any one-character marker. -/
theorem c7_tokenizer_emphasis_amended :
    (∀ (text : List Char) (start j : Nat) (c : Char),
      findClosing text start [c] = some j →
        start < j ∧ text.get? j = some c ∧
          ∀ k, start < k → k < j → text.get? k ≠ some c) ∧
    HighlightMarkdown 100 "_x_".data =
      some [{ type := .text, startPos := 0, endPos := 3, text := "_x_".data }] := by
  refine ⟨?_, rfl⟩
  intro text start j c h
  exact findClosing_single_spec h

/-- C7 amended, witnessed at the line `"ab*"` with the search starting at 0:
the closer is found at index 2 and no earlier position past the start holds
the marker. -/
theorem c7_tokenizer_emphasis_amended_witness :
    0 < 2 ∧ "ab*".data.get? 2 = some '*' ∧
      ∀ k, 0 < k → k < 2 → "ab*".data.get? k ≠ some '*' :=
  c7_tokenizer_emphasis_amended.1 "ab*".data 0 2 '*' rfl

/-- C8: an opening code fence that is never followed by a closing fence line
still produces exactly one CodeFence block holding everything that was
buffered, and no error: the first conjunct states it for an arbitrary line
list whose head opens a fence and whose tail holds no closing line, the
second for the full parse of the input `"```\nfoo"`, whose error component
is nil. -/
theorem c8_unterminated_fence :
    (∀ (l0 : List Char) (rest : List (List Char)),
      isCodeBlock l0 = true → (∀ l ∈ rest, isCodeBlockEnd l = false) →
      parseBlocksLoop (l0 :: rest) =
        some [{ type := .code, content := fenceContent (trimSpace (l0.drop 3)) rest }]) ∧
    ParseMarkdownBlock "```\nfoo".data =
      some ([{ type := .code, content := "foo".data }], none) := by
  have huniv : ∀ (l0 : List Char) (rest : List (List Char)),
      isCodeBlock l0 = true → (∀ l ∈ rest, isCodeBlockEnd l = false) →
      parseBlocksLoop (l0 :: rest) =
        some [{ type := .code, content := fenceContent (trimSpace (l0.drop 3)) rest }] := by
    intro l0 rest h0 hrest
    simp only [parseBlocksLoop]
    rw [if_pos h0]
    rw [show goSliceFrom l0 3 = some (l0.drop 3) from by
          simp [goSliceFrom, isCodeBlock_length_ge h0]]
    rw [fenceScan_no_end hrest]
    simp [show parseBlocksLoop ([] : List (List Char)) = some [] from by simp [parseBlocksLoop],
          fenceContent]
  refine ⟨huniv, ?_⟩
  have h := huniv "```".data ["foo".data] (by decide) (by decide)
  have hs : splitLines "```\nfoo".data = ["```".data, "foo".data] := rfl
  rw [ParseMarkdownBlock, hs, h]
  rfl

/-- C8 witness: the fence branch applied at the concrete unterminated input,
all hypotheses discharged by evaluation. -/
theorem c8_unterminated_fence_witness :
    parseBlocksLoop ["```".data, "foo".data] =
      some [{ type := BlockType.code,
              content := fenceContent (trimSpace ("```".data.drop 3)) ["foo".data] }] :=
  c8_unterminated_fence.1 "```".data ["foo".data] (by decide) (by decide)

/-- C9: the inline parser finds the closing parenthesis of a link URL by
explicit depth counting, so a URL holding balanced parentheses resolves
whole: `"[x](http://a/(b))"` yields a single Link element with text `"x"`
and url `"http://a/(b)"`, and parseInlineLink consumes the whole input. -/
theorem c9_link_paren_depth :
    ParseInlines 100 "[x](http://a/(b))".data =
      some [{ type := InlineTypeLink, text := "x".data, url := "http://a/(b)".data }] ∧
    parseInlineLink "[x](http://a/(b))".data 0 =
      some (17, { type := InlineTypeLink, text := "x".data, url := "http://a/(b)".data }) :=
  ⟨rfl, rfl⟩

/-- C10: ParseMarkdownBlock performs no out-of-bounds string access on any
input: in the embedding every Go indexing or slicing whose bound could fail
is modelled by an Option whose `none` is the panic (splitTableRow's unguarded
`row[0]`, the fence branch's `line[3:]`), and the parse of every input is
`some`.  The call sites establish the needed bounds: isTableLine and
isTableSeparator guarantee a non-empty trimmed row, isCodeBlock guarantees at
least 3 bytes. -/
theorem c10_parse_markdown_block_no_panic (text : List Char) :
    (ParseMarkdownBlock text).isSome = true := by
  have h := parseBlocksLoop_isSome (splitLines text)
  rw [ParseMarkdownBlock]
  cases hp : parseBlocksLoop (splitLines text) with
  | none => rw [hp] at h; simp at h
  | some bs => rfl
